import Mathlib

/-!
# Verification of the adstex citation-key resolution engine

Shallow embedding of `adstex/__init__.py` (a Python 2 program).  Strings are
modelled as `List Char` (the source operates on byte strings; all inputs of
interest are ASCII).  Network calls (`ads.SearchQuery`, `ads.ExportQuery`)
and interactive `raw_input` are modelled as explicit oracle parameters and
scripted input lists.  Fallible operations return `Option`.
-/

namespace Adstex

/-! ## Python regular-expression character classes (byte-string semantics) -/

/-- Python `\d` on byte strings: the ASCII digits. -/
def isPyDigit (c : Char) : Bool := '0' ≤ c && c ≤ '9'

/-- Python `\s` on byte strings: space, tab, newline, carriage return,
form feed, vertical tab. -/
def isPySpace (c : Char) : Bool :=
  c = ' ' || c = '\t' || c = '\n' || c = '\r' || c = '\x0b' || c = '\x0c'

/-- ASCII `[A-Z]`. -/
def isPyUpper (c : Char) : Bool := 'A' ≤ c && c ≤ 'Z'

/-- ASCII `[a-z]`. -/
def isPyLower (c : Char) : Bool := 'a' ≤ c && c ≤ 'z'

/-- ASCII `[A-Za-z]`. -/
def isPyAlpha (c : Char) : Bool := isPyUpper c || isPyLower c

/-- Python `\w` on byte strings: `[A-Za-z0-9_]`. -/
def isWordChar (c : Char) : Bool := isPyAlpha c || isPyDigit c || c = '_'

/-! ## The identifier grammars (`_re_id`, source lines 26-29)

`_re_id['bibcode'] = re.compile(r'\d{4}\D\S{13}[A-Z.:]$')`
`_re_id['arxiv'] = re.compile(r'(?:\d{4}\.\d{4,5}|[a-z-]+(?:\.[A-Za-z-]+)?\/\d{7})')`
`_re_id['doi'] = re.compile(r'10\.\d{4,}(?:\.\d+)*\/(?:(?![\'"&<>])\S)+')`

All three are used through `re.match`, i.e. anchored at the start of the
string only.  Each matcher below returns the matched text (`m.group()`), or
`none` when `re.match` fails.
-/

/-- The body of the bibcode pattern `\d{4}\D\S{13}[A-Z.:]` applied to a whole
string: length 19, four digits, one non-digit, thirteen non-whitespace
characters, and a final character in `[A-Z.:]`. -/
def bibcodePat (l : List Char) : Bool :=
  l.length = 19 &&
  (l.take 4).all isPyDigit &&
  !(isPyDigit (l.getD 4 '0')) &&
  ((l.drop 5).take 13).all (fun c => !(isPySpace c)) &&
  (isPyUpper (l.getD 18 ' ') || l.getD 18 ' ' = '.' || l.getD 18 ' ' = ':')

/-- `_re_id['bibcode'].match`: because of the trailing `$`, either the whole
string is a 19-character bibcode, or it is a bibcode followed by a single
final newline (Python `$` also matches just before a trailing `'\n'`). -/
def matchBibcode (l : List Char) : Option (List Char) :=
  if bibcodePat l then some l
  else if l.getLast? = some '\n' && bibcodePat l.dropLast then some l.dropLast
  else none

/-- The modern-arXiv alternative `\d{4}\.\d{4,5}` of `_re_id['arxiv']`:
four digits, a period, then four or five digits (greedy). -/
def arxivNew (l : List Char) : Option (List Char) :=
  let d4 := l.take 4
  if d4.length = 4 && d4.all isPyDigit then
    match l.drop 4 with
    | '.' :: t =>
      let ds := (t.takeWhile isPyDigit).take 5
      if 4 ≤ ds.length then some (d4 ++ '.' :: ds) else none
    | _ => none
  else none

/-- `\/\d{7}`: a slash followed by exactly seven digits. -/
def arxivSlash (l : List Char) : Option (List Char) :=
  match l with
  | '/' :: t =>
    let ds := t.take 7
    if ds.length = 7 && ds.all isPyDigit then some ('/' :: ds) else none
  | _ => none

/-- The legacy-arXiv alternative `[a-z-]+(?:\.[A-Za-z-]+)?\/\d{7}`:
a lowercase/hyphen category, an optional `.subcategory`, a slash and seven
digits.  The character classes are disjoint from `.` and `/`, so the greedy
runs are the maximal ones; the optional group backtracks to being skipped
when no slash follows it (which then necessarily fails at the `.`). -/
def arxivOld (l : List Char) : Option (List Char) :=
  let r1 := l.takeWhile (fun c => isPyLower c || c = '-')
  if r1.isEmpty then none
  else
    let rest := l.drop r1.length
    match rest with
    | '.' :: t =>
      let r2 := t.takeWhile (fun c => isPyAlpha c || c = '-')
      if r2.isEmpty then
        match arxivSlash rest with
        | some m => some (r1 ++ m)
        | none => none
      else
        match arxivSlash (t.drop r2.length) with
        | some m => some (r1 ++ '.' :: r2 ++ m)
        | none =>
          match arxivSlash rest with
          | some m => some (r1 ++ m)
          | none => none
    | _ =>
      match arxivSlash rest with
      | some m => some (r1 ++ m)
      | none => none

/-- `_re_id['arxiv'].match`: ordered alternation of the two forms. -/
def matchArxiv (l : List Char) : Option (List Char) :=
  match arxivNew l with
  | some m => some m
  | none => arxivOld l

/-- A DOI-suffix character: `(?![\'"&<>])\S`, i.e. non-whitespace and not a
quote, double quote, ampersand or angle bracket. -/
def isDoiSuffixChar (c : Char) : Bool :=
  !(isPySpace c) && !(c = '\'' || c = '"' || c = '&' || c = '<' || c = '>')

/-- The part of the DOI pattern after the registrant digits:
`(?:\.\d+)*\/(?:(?![\'"&<>])\S)+`.  Digit runs are maximal (digits being
disjoint from `.` and `/` there is no productive backtracking).  The `fuel`
argument only bounds the recursion depth: every recursive step consumes at
least two characters of `l`, so a caller passing `l.length` can never hit
the `0` case. -/
def doiRest (fuel : Nat) (l : List Char) : Option (List Char) :=
  match fuel with
  | 0 => none
  | fuel + 1 =>
    match l with
    | '/' :: t =>
      let sfx := t.takeWhile isDoiSuffixChar
      if sfx.isEmpty then none else some ('/' :: sfx)
    | '.' :: t =>
      let ds := t.takeWhile isPyDigit
      if ds.isEmpty then none
      else
        match doiRest fuel (t.drop ds.length) with
        | some m => some ('.' :: ds ++ m)
        | none => none
    | _ => none

/-- `_re_id['doi'].match`: `10\.` then at least four digits, then `doiRest`. -/
def matchDoi (l : List Char) : Option (List Char) :=
  match l with
  | '1' :: '0' :: '.' :: t =>
    let ds := t.takeWhile isPyDigit
    if ds.length < 4 then none
    else
      match doiRest t.length (t.drop ds.length) with
      | some m => some ('1' :: '0' :: '.' :: ds ++ m)
      | none => none
  | _ => none

/-- The identifier kind recognised by `id2bibcode`'s loop. -/
inductive IdType where
  | bibcode
  | arxiv
  | doi
deriving DecidableEq, Repr

/-- The classification performed by the loop in `id2bibcode` (lines 92-100):
the patterns are tried in the fixed order bibcode, arxiv, doi, and the first
`re.match` success decides the identifier type. -/
def recognizeId (s : List Char) : Option IdType :=
  match matchBibcode s with
  | some _ => some IdType.bibcode
  | none =>
    match matchArxiv s with
    | some _ => some IdType.arxiv
    | none =>
      match matchDoi s with
      | some _ => some IdType.doi
      | none => none

/-- `id2bibcode` (lines 92-100).  `query t m` models
`ads.SearchQuery(q=':'.join((id_type, m.group())), fl=['bibcode']).next().bibcode`,
returning `none` on `StopIteration` (in which case the function returns
immediately, without trying the remaining patterns). -/
def id2bibcode (query : IdType → List Char → Option String) (s : List Char) :
    Option String :=
  match matchBibcode s with
  | some m => query IdType.bibcode m
  | none =>
    match matchArxiv s with
    | some m => query IdType.arxiv m
    | none =>
      match matchDoi s with
      | some m => query IdType.doi m
      | none => none

/-! ## Author/year shorthand (`_re_fayear`, line 25) and year expansion -/

/-- The numeric value of a digit string (the `int()` of a regex digit
group). -/
def digitsToNat (l : List Char) : Nat :=
  l.foldl (fun a c => a * 10 + (c.toNat - '0'.toNat)) 0

/-- `_y2toy4` (lines 42-45): `k = int(y2 > _this_year)`;
`str((_this_cent - k) * 100 + y2)`.  `thisYear` and `thisCent` are the
startup globals `date.today().year % 100` and `date.today().year / 100`
(Python 2 floor division), passed explicitly; `y2` is the digit group
captured by `_re_fayear`. -/
def _y2toy4 (thisYear thisCent : Int) (y2 : List Char) : String :=
  let n : Int := digitsToNat y2
  let k : Int := if n > thisYear then 1 else 0
  toString ((thisCent - k) * 100 + n)

/-- `_re_fayear.match`, pattern `([A-Za-z_-]+):?((?:\d{2})?\d{2})`.
The name class is disjoint from `:` and the digits, so the greedy name run
is the maximal one; the optional colon is consumed when present (if the
colon is followed by no digits both regex alternatives fail); the year
group greedily takes four digits when available, else two. -/
def fayearMatch (l : List Char) : Option (List Char × List Char) :=
  let fa := l.takeWhile (fun c => isPyAlpha c || c = '_' || c = '-')
  if fa.isEmpty then none
  else
    let rest := l.drop fa.length
    let rest2 := match rest with
      | ':' :: t => t
      | _ => rest
    if (rest2.take 4).length = 4 && (rest2.take 4).all isPyDigit then
      some (fa, rest2.take 4)
    else if (rest2.take 2).length = 2 && (rest2.take 2).all isPyDigit then
      some (fa, rest2.take 2)
    else none

/-- The classification of a citation key performed by the recognition
stages of `find_bibcode` (lines 130-139): first the `id2bibcode` pattern
loop, then the author/year fallback with two-digit years expanded by
`_y2toy4`. -/
inductive IdClass where
  | bibcode
  | arxiv
  | doi
  | authorYear (author year : List Char)
  | unclassified
deriving DecidableEq, Repr

/-- The Recognizer: identifier grammars in the `id2bibcode` order, then the
author/year shorthand as fallback, with two-digit years expanded. -/
def classify (thisYear thisCent : Int) (s : List Char) : IdClass :=
  match recognizeId s with
  | some IdType.bibcode => IdClass.bibcode
  | some IdType.arxiv => IdClass.arxiv
  | some IdType.doi => IdClass.doi
  | none =>
    match fayearMatch s with
    | some (fa, y) =>
      IdClass.authorYear fa
        (if y.length = 2 then (_y2toy4 thisYear thisCent y).data else y)
    | none => IdClass.unclassified

/-! ## Claims C3, C4, C5 -/

/-- C3: for every 2-digit year string `y2`, `_y2toy4` returns
`(century - 1) * 100 + y2` as a string when `int(y2)` is strictly greater
than the current 2-digit year and `century * 100 + y2` otherwise; in
particular with current 2-digit year 25 and century 20,
`_y2toy4 "99" = "1999"` and `_y2toy4 "10" = "2010"`. -/
theorem y2toy4_correct (thisYear thisCent : Int) (y2 : List Char)
    (hlen : y2.length = 2) (hdig : y2.all isPyDigit = true) :
    ((digitsToNat y2 : Int) > thisYear →
      _y2toy4 thisYear thisCent y2 =
        toString ((thisCent - 1) * 100 + (digitsToNat y2 : Int)))
    ∧ ((digitsToNat y2 : Int) ≤ thisYear →
      _y2toy4 thisYear thisCent y2 =
        toString (thisCent * 100 + (digitsToNat y2 : Int)))
    ∧ _y2toy4 25 20 ['9', '9'] = "1999"
    ∧ _y2toy4 25 20 ['1', '0'] = "2010" := by
  refine ⟨?_, ?_, by decide, by decide⟩
  · intro h
    simp only [_y2toy4, if_pos h]
  · intro h
    simp only [_y2toy4, if_neg (not_lt.mpr h), sub_zero]

/-- Witness for C3 at the concrete inputs named by the claim. -/
theorem y2toy4_correct_witness :
    _y2toy4 25 20 ['9', '9'] = "1999" ∧ _y2toy4 25 20 ['1', '0'] = "2010" :=
  ⟨(y2toy4_correct 25 20 ['9', '9'] (by decide) (by decide)).2.2.1,
   (y2toy4_correct 25 20 ['1', '0'] (by decide) (by decide)).2.2.2⟩

/-- C4 counterexample: the string `"2020ApJ...1S"` is only 12 characters
long, so it does not match the 19-character bibcode pattern
`\d{4}\D\S{13}[A-Z.:]$` (nor any other identifier grammar): the Recognizer
does not classify it as a Bibcode. -/
theorem classify_short_bibcode_counterexample :
    classify 25 20 "2020ApJ...1S".data ≠ IdClass.bibcode := by decide

/-- C4 amended: the Recognizer classifies `"Smith2020"` as
AuthorYear("Smith", "2020") and `"10.1000/xyz123"` as a DOI, but
`"2020ApJ...1S"` matches none of the identifier grammars (a canonical
bibcode has 19 characters) and is left unclassified. -/
theorem classify_examples :
    classify 25 20 "Smith2020".data = IdClass.authorYear "Smith".data "2020".data
    ∧ classify 25 20 "10.1000/xyz123".data = IdClass.doi
    ∧ classify 25 20 "2020ApJ...1S".data = IdClass.unclassified :=
  ⟨by decide, by decide, by decide⟩

/-- C5: every string matching the canonical-bibcode grammar (4-digit year,
one non-digit, 13 non-whitespace characters, final uppercase letter, period
or colon, as a whole-string match) is classified as a Bibcode and not as an
ArXiv id or DOI: the bibcode pattern is tried first in `id2bibcode`'s loop
and the first match wins. -/
theorem bibcode_grammar_recognized (l : List Char) (h : bibcodePat l = true) :
    recognizeId l = some IdType.bibcode := by
  simp only [recognizeId, matchBibcode, if_pos h]

/-- Witness for C5: a full 19-character bibcode. -/
theorem bibcode_grammar_recognized_witness :
    bibcodePat "2020ApJ...888L...1S".data = true
    ∧ recognizeId "2020ApJ...888L...1S".data = some IdType.bibcode :=
  ⟨by decide, bibcode_grammar_recognized _ (by decide)⟩

/-! ## The bibliography store (`bibtexparser` databases)

A bibtex entry is a field map carrying its entry-ID; a database holds a
list of entries.  `bibtexparser`'s `entries_dict` is the Python dict
`{entry['ID']: entry for entry in entries}` (later duplicates win); we model
Python dicts as association lists with unique keys, built by
insert-or-replace. -/

structure BibEntry where
  ID : String
  fields : List (String × String)
deriving DecidableEq, Repr

structure BibDatabase where
  entries : List BibEntry
deriving DecidableEq, Repr

/-- Python `d[k] = v`: replace the binding if the key is present, else
append it. -/
def dictInsert (d : List (String × BibEntry)) (k : String) (v : BibEntry) :
    List (String × BibEntry) :=
  if d.any (fun p => p.1 == k) then
    d.map (fun p => if p.1 == k then (p.1, v) else p)
  else d ++ [(k, v)]

/-- `bibtexparser`'s `entries_dict`: the dict keyed by `entry['ID']`. -/
def entriesDict (es : List BibEntry) : List (String × BibEntry) :=
  es.foldl (fun d e => dictInsert d e.ID e) []

/-- Python `d.get(k)` / `k in d` on our dict model. -/
def dictLookup (d : List (String × BibEntry)) (k : String) : Option BibEntry :=
  (d.find? (fun p => p.1 == k)).map Prod.snd

/-- Python `d1.update(d2)`: bindings of `d2` override those of `d1`. -/
def dictUpdate (d1 d2 : List (String × BibEntry)) : List (String × BibEntry) :=
  d1.filter (fun p => !(d2.any (fun q => q.1 == p.1))) ++ d2

/-- `update_bib` (lines 180-185): clear both caches, update `b1`'s
entries-dict with `b2`'s, and reset `b1.entries` to the merged dict's
values. -/
def update_bib (b1 b2 : BibDatabase) : BibDatabase :=
  ⟨(dictUpdate (entriesDict b1.entries) (entriesDict b2.entries)).map Prod.snd⟩

/-- Looking a key up in an entries list (the observable content of the
store): the first entry whose ID matches. -/
def findEntry (es : List BibEntry) (k : String) : Option BibEntry :=
  es.find? (fun e => e.ID == k)

/-- `entry.get(name, dflt)` on the free-form field map. -/
def getField (e : BibEntry) (name dflt : String) : String :=
  match e.fields.find? (fun p => p.1 == name) with
  | some p => p.2
  | none => dflt

/-- `name in entry`. -/
def hasField (e : BibEntry) (name : String) : Bool :=
  e.fields.any (fun p => p.1 == name)

/-! ## `extract_bibcode` and `entry2bibcode` (lines 153-177) -/

/-- `s.rpartition(c)[-1]`: the part after the last occurrence of `c`, or
the whole string when `c` does not occur. -/
def rpartitionAfter (l : List Char) (c : Char) : List Char :=
  if l.contains c then (l.reverse.takeWhile (fun x => x ≠ c)).reverse else l

/-- Python 2 `urllib.unquote`: decode every `%` followed by two hex digits
into the corresponding byte; leave any other `%` literal. -/
def pyUnquote : List Char → List Char
  | [] => []
  | '%' :: a :: b :: rest =>
    if a.isDigit || ('a' ≤ a && a ≤ 'f') || ('A' ≤ a && a ≤ 'F') then
      if b.isDigit || ('a' ≤ b && b ≤ 'f') || ('A' ≤ b && b ≤ 'F') then
        Char.ofNat (16 * hexVal a + hexVal b) :: pyUnquote rest
      else '%' :: pyUnquote (a :: b :: rest)
    else '%' :: pyUnquote (a :: b :: rest)
  | c :: rest => c :: pyUnquote rest
where
  /-- The value of a hex digit. -/
  hexVal (c : Char) : Nat :=
    if c.isDigit then c.toNat - '0'.toNat
    else if 'a' ≤ c && c ≤ 'f' then c.toNat - 'a'.toNat + 10
    else c.toNat - 'A'.toNat + 10

/-- `extract_bibcode` (lines 153-154):
`unquote(entry.get('adsurl', '').rpartition('/')[-1])`. -/
def extract_bibcode (e : BibEntry) : String :=
  (pyUnquote (rpartitionAfter (getField e "adsurl" "").data '/')).asString

/-- `entry2bibcode` (lines 157-177).  `qBib`, `qDoi`, `qArx` model the three
`ads.SearchQuery(...).next().bibcode` lookups keyed respectively by the
stored adsurl bibcode, the `doi` field and the `eprint` field; `none`
models `StopIteration` (empty result), after which the next field is
tried. -/
def entry2bibcode (qBib qDoi qArx : String → Option String) (e : BibEntry) :
    Option String :=
  match (if hasField e "adsurl" then qBib (extract_bibcode e) else none) with
  | some b => some b
  | none =>
    match (if hasField e "doi" then qDoi (getField e "doi" "") else none) with
    | some b => some b
    | none =>
      if hasField e "eprint" then qArx (getField e "eprint" "") else none

/-! ## The per-key step of `main`'s resolution loop (lines 206-223) -/

/-- The four per-key outcomes printed by the loop. -/
inductive KeyStatus where
  | update (b : String)
  | existing
  | newEntry (b : String)
  | notFound
deriving DecidableEq, Repr

/-- The status line printed for a key (lines 213, 215, 220, 223). -/
def statusLine (key : String) : KeyStatus → String
  | KeyStatus.update b => key ++ ": UPDATE => " ++ b
  | KeyStatus.existing => key ++ ": EXISTING"
  | KeyStatus.newEntry b => key ++ ": NEW ENTRY => " ++ b
  | KeyStatus.notFound => key ++ ": NOT FOUND"

/-- The bibcode a status queues into `to_retrieve` (lines 212 and 219). -/
def queuedBibcode : KeyStatus → Option String
  | KeyStatus.update b => some b
  | KeyStatus.newEntry b => some b
  | _ => none

/-- One iteration of the `for key in keys` loop (lines 206-223).
`resolve` stands for the embedded `find_bibcode` applied with the
operator's interactive responses (its result for each fresh key). -/
def processKey (updateFlag : Bool) (qBib qDoi qArx : String → Option String)
    (resolve : String → Option String) (bib : BibDatabase) (key : String) :
    KeyStatus :=
  match dictLookup (entriesDict bib.entries) key with
  | some entry =>
    if updateFlag then
      match entry2bibcode qBib qDoi qArx entry with
      | some bn =>
        if bn ≠ "" ∧ bn ≠ extract_bibcode entry then KeyStatus.update bn
        else KeyStatus.existing
      | none => KeyStatus.existing
    else KeyStatus.existing
  | none =>
    match resolve key with
    | some b => KeyStatus.newEntry b
    | none => KeyStatus.notFound

/-! ### Dictionary lemmas -/

/-- Every binding of an entries-dict pairs an entry with its own ID. -/
def KeysAreIDs (d : List (String × BibEntry)) : Prop :=
  ∀ p ∈ d, p.2.ID = p.1

theorem keysAreIDs_dictInsert {d : List (String × BibEntry)} {k : String}
    {v : BibEntry} (hd : KeysAreIDs d) (hv : v.ID = k) :
    KeysAreIDs (dictInsert d k v) := by
  intro p hp
  unfold dictInsert at hp
  by_cases h : d.any (fun p => p.1 == k)
  · rw [if_pos h] at hp
    rcases List.mem_map.mp hp with ⟨q, hq, hmap⟩
    by_cases hk : (q.1 == k) = true
    · rw [if_pos hk] at hmap
      subst hmap
      simpa [hv] using (eq_of_beq hk).symm
    · rw [if_neg hk] at hmap
      subst hmap
      exact hd q hq
  · rw [if_neg h] at hp
    rcases List.mem_append.mp hp with h1 | h1
    · exact hd p h1
    · rcases List.mem_singleton.mp h1 with rfl
      exact hv

theorem keysAreIDs_foldl (es : List BibEntry) :
    ∀ d, KeysAreIDs d →
      KeysAreIDs (es.foldl (fun d e => dictInsert d e.ID e) d) := by
  induction es with
  | nil => exact fun d hd => hd
  | cons e es ih =>
    intro d hd
    exact ih _ (keysAreIDs_dictInsert hd rfl)

theorem keysAreIDs_entriesDict (es : List BibEntry) :
    KeysAreIDs (entriesDict es) :=
  keysAreIDs_foldl es [] (fun p hp => absurd hp (List.not_mem_nil p))

theorem keysAreIDs_dictUpdate {d1 d2 : List (String × BibEntry)}
    (h1 : KeysAreIDs d1) (h2 : KeysAreIDs d2) :
    KeysAreIDs (dictUpdate d1 d2) := by
  intro p hp
  rcases List.mem_append.mp hp with h | h
  · exact h1 p (List.mem_of_mem_filter h)
  · exact h2 p h

theorem findEntry_values {d : List (String × BibEntry)} (k : String)
    (h : KeysAreIDs d) : findEntry (d.map Prod.snd) k = dictLookup d k := by
  induction d with
  | nil => rfl
  | cons p d ih =>
    have hid : p.2.ID = p.1 := h p (List.mem_cons_self p d)
    have ht : KeysAreIDs d := fun q hq => h q (List.mem_cons_of_mem p hq)
    unfold findEntry dictLookup
    by_cases hk : p.1 = k
    · rw [List.map_cons, List.find?_cons_of_pos _ (by simp [hid, hk]),
        List.find?_cons_of_pos _ (by simp [hk])]
      rfl
    · rw [List.map_cons, List.find?_cons_of_neg _ (by simp [hid, hk]),
        List.find?_cons_of_neg _ (by simp [hk])]
      exact ih ht

theorem find?_append_some {α : Type} {p : α → Bool} {l1 : List α}
    (l2 : List α) {x : α} (h : l1.find? p = some x) :
    (l1 ++ l2).find? p = some x := by
  induction l1 with
  | nil => simp [List.find?] at h
  | cons a l ih =>
    by_cases ha : p a = true
    · rw [List.find?_cons_of_pos _ ha] at h
      rw [List.cons_append, List.find?_cons_of_pos _ ha]
      exact h
    · rw [List.find?_cons_of_neg _ ha] at h
      rw [List.cons_append, List.find?_cons_of_neg _ ha]
      exact ih h

theorem find?_append_none {α : Type} {p : α → Bool} {l1 : List α}
    (l2 : List α) (h : l1.find? p = none) :
    (l1 ++ l2).find? p = l2.find? p := by
  induction l1 with
  | nil => rfl
  | cons a l ih =>
    by_cases ha : p a = true
    · rw [List.find?_cons_of_pos _ ha] at h
      exact absurd h (by simp)
    · rw [List.find?_cons_of_neg _ ha] at h
      rw [List.cons_append, List.find?_cons_of_neg _ ha]
      exact ih h

theorem find?_filter_keys (d1 : List (String × BibEntry))
    {d2 : List (String × BibEntry)} {k : String}
    (hnone : ∀ q ∈ d2, (q.1 == k) = false) :
    (d1.filter (fun p => !(d2.any (fun q => q.1 == p.1)))).find?
        (fun p => p.1 == k) =
      d1.find? (fun p => p.1 == k) := by
  induction d1 with
  | nil => rfl
  | cons p d ih =>
    by_cases hpred : (d2.any (fun q => q.1 == p.1)) = true
    · have hpk : (p.1 == k) = false := by
        by_contra hc
        have hpk : p.1 = k := eq_of_beq (Bool.of_not_eq_false hc)
        rcases List.any_eq_true.mp hpred with ⟨q, hq, hqp⟩
        have : (q.1 == k) = true := by
          rw [← hpk]; exact hqp
        rw [hnone q hq] at this
        exact Bool.false_ne_true this
      rw [List.filter_cons_of_neg (by simp [hpred]),
        List.find?_cons_of_neg _ (by simp [hpk])]
      exact ih
    · rw [List.filter_cons_of_pos (by simp [hpred])]
      by_cases hpk : (p.1 == k) = true
      · rw [List.find?_cons_of_pos _ (by exact hpk),
          List.find?_cons_of_pos _ (by exact hpk)]
      · rw [List.find?_cons_of_neg _ (by exact hpk),
          List.find?_cons_of_neg _ (by exact hpk)]
        exact ih

theorem dictLookup_dictUpdate (d1 d2 : List (String × BibEntry)) (k : String) :
    dictLookup (dictUpdate d1 d2) k =
      match dictLookup d2 k with
      | some e => some e
      | none => dictLookup d1 k := by
  unfold dictUpdate dictLookup
  cases h : d2.find? (fun q => q.1 == k) with
  | none =>
    have hall : ∀ q ∈ d2, (q.1 == k) = false := by
      intro q hq
      have := List.find?_eq_none.mp h q hq
      exact Bool.eq_false_iff.mpr this
    have hfk := find?_filter_keys d1 hall
    cases hf : (d1.filter (fun p => !(d2.any (fun q => q.1 == p.1)))).find?
        (fun p => p.1 == k) with
    | none =>
      rw [find?_append_none _ hf, h, ← hfk, hf]
      simp
    | some x =>
      rw [find?_append_some _ hf, ← hfk, hf]
      simp
  | some q =>
    have hfilter : (d1.filter
        (fun p => !(d2.any (fun q => q.1 == p.1)))).find?
          (fun p => p.1 == k) = none := by
      apply List.find?_eq_none.mpr
      intro x hx
      intro hxk
      have hxmem := List.of_mem_filter hx
      have hxk' : x.1 = k := eq_of_beq hxk
      have hq0 := List.find?_some h
      have hq : (q.1 == k) = true := hq0
      have hqmem := List.mem_of_find?_eq_some h
      have : (d2.any (fun r => r.1 == x.1)) = true := by
        apply List.any_eq_true.mpr
        exact ⟨q, hqmem, by rw [hxk']; exact hq⟩
      rw [this] at hxmem
      exact Bool.false_ne_true (by simpa using hxmem)
    rw [find?_append_none _ hfilter, h]
    rfl

/-- With pairwise-distinct IDs, `entries_dict` is just the keyed copy of the
entry list. -/
theorem entriesDict_eq_map_aux (es : List BibEntry) :
    ∀ d, (∀ e ∈ es, (d.any (fun p => p.1 == e.ID)) = false) →
      (es.map BibEntry.ID).Nodup →
      es.foldl (fun d e => dictInsert d e.ID e) d =
        d ++ es.map (fun e => (e.ID, e)) := by
  induction es with
  | nil => intro d _ _; simp
  | cons e es ih =>
    intro d hd hnd
    have hins : dictInsert d e.ID e = d ++ [(e.ID, e)] := by
      unfold dictInsert
      rw [if_neg (by simp [hd e (List.mem_cons_self e es)])]
    have hnd' : (es.map BibEntry.ID).Nodup := (List.nodup_cons.mp hnd).2
    have hne : e.ID ∉ es.map BibEntry.ID := (List.nodup_cons.mp hnd).1
    have hd' : ∀ e' ∈ es,
        ((d ++ [(e.ID, e)]).any (fun p => p.1 == e'.ID)) = false := by
      intro e' he'
      rw [List.any_append]
      have h1 := hd e' (List.mem_cons_of_mem e he')
      have h2 : ([(e.ID, e)].any (fun p => p.1 == e'.ID)) = false := by
        simp only [List.any_cons, List.any_nil, Bool.or_false]
        apply beq_eq_false_iff_ne.mpr
        intro hc
        exact hne (hc ▸ List.mem_map_of_mem BibEntry.ID he')
      rw [h1, h2]
      rfl
    calc (e :: es).foldl (fun d e => dictInsert d e.ID e) d
        = es.foldl (fun d e => dictInsert d e.ID e) (d ++ [(e.ID, e)]) := by
          rw [List.foldl_cons, hins]
      _ = (d ++ [(e.ID, e)]) ++ es.map (fun e => (e.ID, e)) := ih _ hd' hnd'
      _ = d ++ (e :: es).map (fun e => (e.ID, e)) := by simp

theorem entriesDict_eq_map {es : List BibEntry}
    (h : (es.map BibEntry.ID).Nodup) :
    entriesDict es = es.map (fun e => (e.ID, e)) := by
  have := entriesDict_eq_map_aux es [] (by intro e _; rfl) h
  simpa [entriesDict] using this

theorem dictLookup_map_self {es : List BibEntry} {e : BibEntry}
    (he : e ∈ es) (h : (es.map BibEntry.ID).Nodup) :
    dictLookup (es.map (fun e => (e.ID, e))) e.ID = some e := by
  induction es with
  | nil => exact absurd he (List.not_mem_nil e)
  | cons a es ih =>
    have hnd' : (es.map BibEntry.ID).Nodup := (List.nodup_cons.mp h).2
    have hna : a.ID ∉ es.map BibEntry.ID := (List.nodup_cons.mp h).1
    rcases List.mem_cons.mp he with rfl | he'
    · unfold dictLookup
      rw [List.map_cons, List.find?_cons_of_pos _ (by simp)]
      rfl
    · have hne : a.ID ≠ e.ID := by
        intro hc
        exact hna (hc ▸ List.mem_map_of_mem BibEntry.ID he')
      unfold dictLookup
      rw [List.map_cons, List.find?_cons_of_neg _ (by simp [hne])]
      exact ih he' hnd'

/-- Values stored in an entries-dict all come from the entry list. -/
theorem entriesDict_values_mem (es : List BibEntry) :
    ∀ p ∈ entriesDict es, p.2 ∈ es := by
  have gen : ∀ (l : List BibEntry) (d : List (String × BibEntry))
      (S : List BibEntry), (∀ p ∈ d, p.2 ∈ S) → (∀ e ∈ l, e ∈ S) →
      ∀ p ∈ l.foldl (fun d e => dictInsert d e.ID e) d, p.2 ∈ S := by
    intro l
    induction l with
    | nil => intro d S hd _ p hp; exact hd p hp
    | cons e l ih =>
      intro d S hd hl p hp
      refine ih _ S ?_ (fun e' he' => hl e' (List.mem_cons_of_mem e he')) p hp
      intro q hq
      replace hq : q ∈ dictInsert d e.ID e := hq
      unfold dictInsert at hq
      by_cases h : d.any (fun p => p.1 == e.ID)
      · rw [if_pos h] at hq
        rcases List.mem_map.mp hq with ⟨r, hr, hmap⟩
        by_cases hk : (r.1 == e.ID) = true
        · rw [if_pos hk] at hmap
          subst hmap
          exact hl e (List.mem_cons_self e l)
        · rw [if_neg hk] at hmap
          subst hmap
          exact hd r hr
      · rw [if_neg h] at hq
        rcases List.mem_append.mp hq with h1 | h1
        · exact hd q h1
        · rcases List.mem_singleton.mp h1 with rfl
          exact hl e (List.mem_cons_self e l)
  intro p hp
  exact gen es [] es (fun p hp => absurd hp (List.not_mem_nil p))
    (fun e he => he) p hp

/-! ## Claim C6 -/

/-- C6: for every existing store `b1` and batch `b2`, `update_bib b1 b2`
maps each entry-ID present in `b2` to `b2`'s record (overwriting any prior
entry of that ID), and preserves unchanged every entry of `b1` whose ID
does not appear in `b2`. -/
theorem update_bib_correct (b1 b2 : BibDatabase) (k : String) :
    (∀ e, dictLookup (entriesDict b2.entries) k = some e →
      findEntry (update_bib b1 b2).entries k = some e)
    ∧ (dictLookup (entriesDict b2.entries) k = none →
      findEntry (update_bib b1 b2).entries k =
        dictLookup (entriesDict b1.entries) k)
    ∧ (∀ e ∈ b1.entries, (b1.entries.map BibEntry.ID).Nodup →
        (∀ e2 ∈ b2.entries, e2.ID ≠ e.ID) →
        findEntry (update_bib b1 b2).entries e.ID = some e) := by
  have hkeys : KeysAreIDs (dictUpdate (entriesDict b1.entries)
      (entriesDict b2.entries)) :=
    keysAreIDs_dictUpdate (keysAreIDs_entriesDict _) (keysAreIDs_entriesDict _)
  have hval : ∀ k', findEntry (update_bib b1 b2).entries k' =
      dictLookup (dictUpdate (entriesDict b1.entries)
        (entriesDict b2.entries)) k' := by
    intro k'
    exact findEntry_values k' hkeys
  refine ⟨?_, ?_, ?_⟩
  · intro e he
    rw [hval k, dictLookup_dictUpdate, he]
  · intro hnone
    rw [hval k, dictLookup_dictUpdate, hnone]
  · intro e he hnd hnot
    have hnone : dictLookup (entriesDict b2.entries) e.ID = none := by
      unfold dictLookup
      cases hf : (entriesDict b2.entries).find? (fun p => p.1 == e.ID) with
      | none => rfl
      | some q =>
        have hqmem := List.mem_of_find?_eq_some hf
        have hqbeq0 := List.find?_some hf
        have hqbeq : (q.1 == e.ID) = true := hqbeq0
        have hqk : q.1 = e.ID := eq_of_beq hqbeq
        have hqid : q.2.ID = q.1 := keysAreIDs_entriesDict b2.entries q hqmem
        have hq2 : q.2 ∈ b2.entries := entriesDict_values_mem b2.entries q hqmem
        exact absurd (hqid.trans hqk) (hnot q.2 hq2)
    rw [hval e.ID, dictLookup_dictUpdate, hnone, entriesDict_eq_map hnd]
    exact dictLookup_map_self he hnd

/-- Witness for C6 on a concrete store and batch: the batch record
overwrites the stored entry of the same ID, and the untouched entry
survives. -/
theorem update_bib_correct_witness :
    findEntry (update_bib
        ⟨[⟨"a", [("title", "old")]⟩, ⟨"b", [("title", "keep")]⟩]⟩
        ⟨[⟨"a", [("title", "new")]⟩]⟩).entries "a" =
      some ⟨"a", [("title", "new")]⟩
    ∧ findEntry (update_bib
        ⟨[⟨"a", [("title", "old")]⟩, ⟨"b", [("title", "keep")]⟩]⟩
        ⟨[⟨"a", [("title", "new")]⟩]⟩).entries "b" =
      some ⟨"b", [("title", "keep")]⟩ := by
  constructor
  · exact (update_bib_correct ⟨[⟨"a", [("title", "old")]⟩,
      ⟨"b", [("title", "keep")]⟩]⟩ ⟨[⟨"a", [("title", "new")]⟩]⟩ "a").1
      ⟨"a", [("title", "new")]⟩ (by decide)
  · exact (update_bib_correct ⟨[⟨"a", [("title", "old")]⟩,
      ⟨"b", [("title", "keep")]⟩]⟩ ⟨[⟨"a", [("title", "new")]⟩]⟩ "b").2.2
      ⟨"b", [("title", "keep")]⟩ (by decide) (by decide) (by decide)

/-! ## Claims C2 and C10 -/

/-- C2 counterexample: with update-checking enabled and a fresh lookup
returning exactly the stored bibcode, the loop prints `EXISTING` — there is
no `EXISTING unchanged` status line in the code. -/
theorem existing_unchanged_counterexample :
    entry2bibcode (fun s => some s) (fun _ => none) (fun _ => none)
        ⟨"Smith2020", [("adsurl", "https://ui.adsabs.harvard.edu/abs/2020ApJ...1S")]⟩ =
      some (extract_bibcode
        ⟨"Smith2020", [("adsurl", "https://ui.adsabs.harvard.edu/abs/2020ApJ...1S")]⟩)
    ∧ statusLine "Smith2020"
        (processKey true (fun s => some s) (fun _ => none) (fun _ => none)
          (fun _ => none)
          ⟨[⟨"Smith2020", [("adsurl", "https://ui.adsabs.harvard.edu/abs/2020ApJ...1S")]⟩]⟩
          "Smith2020") =
      "Smith2020: EXISTING"
    ∧ "Smith2020: EXISTING" ≠ "Smith2020: EXISTING unchanged" := by
  refine ⟨by decide, by decide, by decide⟩

/-- C2 amended: with update-checking enabled, a stored key whose fresh
lookup returns the stored bibcode yields the status line `EXISTING` (the
code prints no distinct "unchanged" line), and a fresh lookup returning a
different (non-empty) bibcode yields `UPDATE => <new bibcode>` and queues
that bibcode for refetch. -/
theorem update_check_statuses (qBib qDoi qArx resolve : String → Option String)
    (bib : BibDatabase) (key : String) (entry : BibEntry) (bn : String)
    (hstore : dictLookup (entriesDict bib.entries) key = some entry)
    (hfresh : entry2bibcode qBib qDoi qArx entry = some bn)
    (hbn : bn ≠ "") :
    (bn = extract_bibcode entry →
      processKey true qBib qDoi qArx resolve bib key = KeyStatus.existing
      ∧ statusLine key KeyStatus.existing = key ++ ": EXISTING")
    ∧ (bn ≠ extract_bibcode entry →
      processKey true qBib qDoi qArx resolve bib key = KeyStatus.update bn
      ∧ statusLine key (KeyStatus.update bn) = key ++ ": UPDATE => " ++ bn
      ∧ queuedBibcode (KeyStatus.update bn) = some bn) := by
  constructor
  · intro heq
    refine ⟨?_, rfl⟩
    unfold processKey
    rw [hstore]
    simp only [if_true, hfresh]
    rw [if_neg]
    intro hc
    exact hc.2 heq
  · intro hne
    refine ⟨?_, rfl, rfl⟩
    unfold processKey
    rw [hstore]
    simp only [if_true, hfresh]
    rw [if_pos ⟨hbn, hne⟩]

/-- Witness for C2 (amended) in both directions, on a store holding
`Smith2020 ↦ 2020ApJ...1S`. -/
theorem update_check_statuses_witness :
    processKey true (fun s => some s) (fun _ => none) (fun _ => none)
        (fun _ => none) ⟨[⟨"Smith2020", [("adsurl", "abs/2020ApJ...1S")]⟩]⟩
        "Smith2020" = KeyStatus.existing
    ∧ processKey true (fun _ => some "2021MNRAS.100B") (fun _ => none)
        (fun _ => none) (fun _ => none)
        ⟨[⟨"Smith2020", [("adsurl", "abs/2020ApJ...1S")]⟩]⟩
        "Smith2020" = KeyStatus.update "2021MNRAS.100B" := by
  constructor
  · exact ((update_check_statuses (fun s => some s) (fun _ => none)
      (fun _ => none) (fun _ => none)
      ⟨[⟨"Smith2020", [("adsurl", "abs/2020ApJ...1S")]⟩]⟩ "Smith2020"
      ⟨"Smith2020", [("adsurl", "abs/2020ApJ...1S")]⟩ "2020ApJ...1S"
      (by decide) (by decide) (by decide)).1 (by decide)).1
  · exact ((update_check_statuses (fun _ => some "2021MNRAS.100B")
      (fun _ => none) (fun _ => none) (fun _ => none)
      ⟨[⟨"Smith2020", [("adsurl", "abs/2020ApJ...1S")]⟩]⟩ "Smith2020"
      ⟨"Smith2020", [("adsurl", "abs/2020ApJ...1S")]⟩ "2021MNRAS.100B"
      (by decide) (by decide) (by decide)).2 (by decide)).1

/-- C10: an existing entry with no `adsurl` field has
`extract_bibcode = ""`; with update-checking enabled, whenever its `doi` or
`eprint` field resolves to a (non-empty) bibcode, that bibcode compares
unequal to `""`, so the key is reported as UPDATE and queued for refetch —
on every run, drift or not. -/
theorem no_adsurl_always_update
    (qBib qDoi qArx resolve : String → Option String) (bib : BibDatabase)
    (key : String) (entry : BibEntry) (bn : String)
    (hnoads : hasField entry "adsurl" = false)
    (hstore : dictLookup (entriesDict bib.entries) key = some entry)
    (hres : entry2bibcode qBib qDoi qArx entry = some bn)
    (hbn : bn ≠ "") :
    extract_bibcode entry = ""
    ∧ processKey true qBib qDoi qArx resolve bib key = KeyStatus.update bn
    ∧ queuedBibcode (processKey true qBib qDoi qArx resolve bib key) =
        some bn := by
  have hany : (entry.fields.any (fun p => p.1 == "adsurl")) = false := hnoads
  have hfind : entry.fields.find? (fun p => p.1 == "adsurl") = none := by
    apply List.find?_eq_none.mpr
    intro p hp hptrue
    have : (entry.fields.any (fun p => p.1 == "adsurl")) = true :=
      List.any_eq_true.mpr ⟨p, hp, hptrue⟩
    rw [hany] at this
    exact Bool.false_ne_true this
  have hext : extract_bibcode entry = "" := by
    unfold extract_bibcode getField
    rw [hfind]
    rfl
  have hstep : processKey true qBib qDoi qArx resolve bib key =
      KeyStatus.update bn := by
    unfold processKey
    rw [hstore]
    simp only [if_true, hres]
    rw [if_pos ⟨hbn, by rw [hext]; exact hbn⟩]
  exact ⟨hext, hstep, by rw [hstep]; rfl⟩

/-- Witness for C10: an entry holding only a `doi` field whose lookup
resolves. -/
theorem no_adsurl_always_update_witness :
    extract_bibcode ⟨"k", [("doi", "10.1000/x")]⟩ = ""
    ∧ processKey true (fun _ => none) (fun _ => some "2020ApJ...888L...1S")
        (fun _ => none) (fun _ => none) ⟨[⟨"k", [("doi", "10.1000/x")]⟩]⟩
        "k" = KeyStatus.update "2020ApJ...888L...1S"
    ∧ queuedBibcode (processKey true (fun _ => none)
        (fun _ => some "2020ApJ...888L...1S") (fun _ => none) (fun _ => none)
        ⟨[⟨"k", [("doi", "10.1000/x")]⟩]⟩ "k") =
      some "2020ApJ...888L...1S" :=
  no_adsurl_always_update (fun _ => none) (fun _ => some "2020ApJ...888L...1S")
    (fun _ => none) (fun _ => none) ⟨[⟨"k", [("doi", "10.1000/x")]⟩]⟩ "k"
    ⟨"k", [("doi", "10.1000/x")]⟩ "2020ApJ...888L...1S"
    (by decide) (by decide) (by decide) (by decide)

/-! ## Key extraction (`_re_cite`, line 24, and `search_keys`, lines 60-70)

`_re_cite = \\cite(?:[pt]|author|year|alt)?\*?(?:\[.*\])?{([\w\s/&.:,-]+)}`,
scanned with `finditer`.  The matcher below follows the regex engine's
ordered backtracking: alternatives are tried left to right, optional pieces
are tried consumed-first, and the greedy `.*` inside the bracket group is
tried longest-first (it cannot cross a newline). -/

/-- Consume an exact literal. -/
def matchLit : List Char → List Char → Option (List Char)
  | [], l => some l
  | _ :: _, [] => none
  | c :: s, d :: l => if c = d then matchLit s l else none

/-- A character of the capture class `[\w\s/&.:,-]`. -/
def citeClassChar (c : Char) : Bool :=
  isWordChar c || isPySpace c ||
    c = '/' || c = '&' || c = '.' || c = ':' || c = ',' || c = '-'

/-- `{([\w\s/&.:,-]+)}`: an open brace, a non-empty greedy run of class
characters (which exclude `}`, so the maximal run is the only candidate),
and a close brace.  Returns the captured group and the rest of the text. -/
def bracePart : List Char → Option (List Char × List Char)
  | '{' :: t =>
    if (t.takeWhile citeClassChar).isEmpty then none
    else
      match t.drop (t.takeWhile citeClassChar).length with
      | '}' :: rest => some (t.takeWhile citeClassChar, rest)
      | _ => none
  | _ => none

/-- The candidate continuations for the greedy `.*` of `\[.*\]`: the text
after each `]` whose preceding characters contain no newline, longest
match (rightmost `]`) first. -/
def bracketRests : List Char → List (List Char)
  | [] => []
  | c :: t =>
    if c = '\n' then []
    else bracketRests t ++ (if c = ']' then [t] else [])

/-- Try `bracePart` on each candidate in order. -/
def firstBrace : List (List Char) → Option (List Char × List Char)
  | [] => none
  | r :: rs =>
    match bracePart r with
    | some x => some x
    | none => firstBrace rs

/-- `(?:\[.*\])?{...}`: when a `[` is present try each bracket closing in
greedy order, falling back to skipping the optional group. -/
def afterOptBracket (l : List Char) : Option (List Char × List Char) :=
  match l with
  | '[' :: t =>
    match firstBrace (bracketRests t) with
    | some x => some x
    | none => bracePart l
  | _ => bracePart l

/-- `\*?(?:\[.*\])?{...}`: the optional star is tried consumed-first. -/
def starPart (l : List Char) : Option (List Char × List Char) :=
  match l with
  | '*' :: t =>
    match afterOptBracket t with
    | some x => some x
    | none => afterOptBracket l
  | _ => afterOptBracket l

/-- A literal suffix alternative followed by the rest of the pattern. -/
def tryLitStar (s l : List Char) : Option (List Char × List Char) :=
  match matchLit s l with
  | some r => starPart r
  | none => none

/-- `(?:[pt]|author|year|alt)?` followed by the rest of the pattern, with
the regex's ordered alternation and the empty alternative last. -/
def citeSuffix (l : List Char) : Option (List Char × List Char) :=
  match (match l with
         | c :: t => if c = 'p' || c = 't' then starPart t else none
         | [] => none) with
  | some x => some x
  | none =>
    match tryLitStar ['a', 'u', 't', 'h', 'o', 'r'] l with
    | some x => some x
    | none =>
      match tryLitStar ['y', 'e', 'a', 'r'] l with
      | some x => some x
      | none =>
        match tryLitStar ['a', 'l', 't'] l with
        | some x => some x
        | none => starPart l

/-- A `_re_cite` match attempt anchored at the head of `l`: the literal
`\cite`, then the suffix/star/bracket/brace tail.  Returns the captured
key-list group and the text after the match. -/
def matchCiteAt (l : List Char) : Option (List Char × List Char) :=
  match matchLit ['\\', 'c', 'i', 't', 'e'] l with
  | some r => citeSuffix r
  | none => none

theorem matchLit_length :
    ∀ (s l r : List Char), matchLit s l = some r → r.length ≤ l.length := by
  intro s
  induction s with
  | nil =>
    intro l r h
    cases h
    exact Nat.le_refl _
  | cons c s ih =>
    intro l r h
    cases l with
    | nil => cases h
    | cons d l =>
      unfold matchLit at h
      by_cases hc : c = d
      · rw [if_pos hc] at h
        exact Nat.le_succ_of_le (ih l r h)
      · rw [if_neg hc] at h
        cases h

theorem bracePart_length {l : List Char} {x : List Char × List Char}
    (h : bracePart l = some x) : x.2.length < l.length := by
  unfold bracePart at h
  split at h
  next t =>
    split at h
    · cases h
    · split at h
      next rest heq =>
        cases h
        have h1 : rest.length + 1 =
            (t.drop (t.takeWhile citeClassChar).length).length := by
          rw [heq]
          rfl
        have h2 : (t.drop (t.takeWhile citeClassChar).length).length ≤
            t.length := by
          rw [List.length_drop]
          exact Nat.sub_le _ _
        simp only [List.length_cons]
        omega
      next => cases h
  next => cases h

theorem bracketRests_length {t r : List Char} (h : r ∈ bracketRests t) :
    r.length < t.length := by
  induction t with
  | nil => cases h
  | cons c t ih =>
    unfold bracketRests at h
    by_cases hc : c = '\n'
    · rw [if_pos hc] at h
      cases h
    · rw [if_neg hc] at h
      rcases List.mem_append.mp h with h1 | h1
      · exact Nat.lt_succ_of_lt (ih h1)
      · by_cases hb : c = ']'
        · rw [if_pos hb] at h1
          rcases List.mem_singleton.mp h1 with rfl
          exact Nat.lt_succ_self _
        · rw [if_neg hb] at h1
          cases h1

theorem firstBrace_exists {rs : List (List Char)} {x : List Char × List Char}
    (h : firstBrace rs = some x) : ∃ r ∈ rs, bracePart r = some x := by
  induction rs with
  | nil => cases h
  | cons r rs ih =>
    unfold firstBrace at h
    cases hb : bracePart r with
    | some y =>
      rw [hb] at h
      cases h
      exact ⟨r, List.mem_cons_self r rs, hb⟩
    | none =>
      rw [hb] at h
      rcases ih h with ⟨r', hr', hb'⟩
      exact ⟨r', List.mem_cons_of_mem r hr', hb'⟩

theorem afterOptBracket_length {l : List Char} {x : List Char × List Char}
    (h : afterOptBracket l = some x) : x.2.length < l.length := by
  unfold afterOptBracket at h
  split at h
  next t =>
    split at h
    next y hf =>
      cases h
      rcases firstBrace_exists hf with ⟨r, hr, hb⟩
      have h1 := bracePart_length hb
      have h2 := bracketRests_length hr
      simp only [List.length_cons]
      omega
    next => exact bracePart_length h
  next => exact bracePart_length h

theorem starPart_length {l : List Char} {x : List Char × List Char}
    (h : starPart l = some x) : x.2.length < l.length := by
  unfold starPart at h
  split at h
  next t =>
    split at h
    next y ha =>
      cases h
      exact Nat.lt_succ_of_lt (afterOptBracket_length ha)
    next => exact afterOptBracket_length h
  next => exact afterOptBracket_length h

theorem tryLitStar_length {s l : List Char} {x : List Char × List Char}
    (h : tryLitStar s l = some x) : x.2.length ≤ l.length := by
  unfold tryLitStar at h
  cases hm : matchLit s l with
  | some r =>
    rw [hm] at h
    exact Nat.le_trans (Nat.le_of_lt (starPart_length h)) (matchLit_length s l r hm)
  | none =>
    rw [hm] at h
    cases h

theorem citeSuffix_length {l : List Char} {x : List Char × List Char}
    (h : citeSuffix l = some x) : x.2.length ≤ l.length := by
  unfold citeSuffix at h
  split at h
  next y hy =>
    cases h
    split at hy
    next c t =>
      split at hy
      · exact Nat.le_succ_of_le (Nat.le_of_lt (starPart_length hy))
      · cases hy
    next => cases hy
  next =>
    split at h
    next y h2 =>
      cases h
      exact tryLitStar_length h2
    next =>
      split at h
      next y h3 =>
        cases h
        exact tryLitStar_length h3
      next =>
        split at h
        next y h4 =>
          cases h
          exact tryLitStar_length h4
        next => exact Nat.le_of_lt (starPart_length h)

theorem matchCiteAt_length {l : List Char} {x : List Char × List Char}
    (h : matchCiteAt l = some x) : x.2.length < l.length := by
  unfold matchCiteAt at h
  cases hm : matchLit ['\\', 'c', 'i', 't', 'e'] l with
  | some r =>
    rw [hm] at h
    have h1 := citeSuffix_length h
    have h2 := matchLit_length _ _ _ hm
    cases l with
    | nil => cases hm
    | cons c t =>
      unfold matchLit at hm
      by_cases hc : '\\' = c
      · rw [if_pos hc] at hm
        have h3 := matchLit_length _ _ _ hm
        simp only [List.length_cons]
        omega
      · rw [if_neg hc] at hm
        cases hm
  | none =>
    rw [hm] at h
    cases h

/-- `finditer` over the text: try a match at each position, left to right,
resuming after the end of each (non-empty) match; collect the captured
groups. -/
def findCites (l : List Char) : List (List Char) :=
  match h : matchCiteAt l with
  | some (g, rest) => g :: findCites rest
  | none =>
    match l with
    | [] => []
    | _ :: t => findCites t
termination_by l.length
decreasing_by
  · exact matchCiteAt_length h
  · simp

/-- Python `s.split(',')` (never returns an empty list). -/
def splitOnComma : List Char → List (List Char)
  | [] => [[]]
  | c :: t =>
    if c = ',' then [] :: splitOnComma t
    else
      match splitOnComma t with
      | s :: ss => (c :: s) :: ss
      | [] => [[c]]

/-- Python `s.strip()`: remove leading and trailing whitespace. -/
def pyStrip (l : List Char) : List Char :=
  ((l.dropWhile isPySpace).reverse.dropWhile isPySpace).reverse

/-- `search_keys` (lines 60-70) on the already-read file contents: for
every `_re_cite` match in every text, split the captured group on commas,
strip each token and add it to one flat set. -/
def search_keys (texts : List (List Char)) : Finset (List Char) :=
  texts.foldl
    (fun keys text =>
      (findCites text).foldl
        (fun ks g =>
          (splitOnComma g).foldl (fun s tok => insert (pyStrip tok) s) ks)
        keys)
    ∅

/-! ### Stripping lemmas and claim C8 -/

theorem dropWhile_idem (p : Char → Bool) (l : List Char) :
    List.dropWhile p (List.dropWhile p l) = List.dropWhile p l := by
  induction l with
  | nil => rfl
  | cons c t ih =>
    by_cases h : p c = true
    · rw [List.dropWhile_cons, if_pos h]
      exact ih
    · rw [List.dropWhile_cons, if_neg h, List.dropWhile_cons, if_neg h]

theorem dropWhile_fixed_of_prefix {p : Char → Bool} {l b : List Char}
    (hl : List.dropWhile p l = l) (hpre : b <+: l) :
    List.dropWhile p b = b := by
  cases b with
  | nil => rfl
  | cons c t =>
    rcases hpre with ⟨r, hr⟩
    have hc : p c = false := by
      by_contra hcne
      have hc' : p c = true := Bool.of_not_eq_false hcne
      rw [← hr, List.cons_append, List.dropWhile_cons, if_pos hc'] at hl
      have hle : (List.dropWhile p (t ++ r)).length ≤ (t ++ r).length :=
        (List.dropWhile_suffix p).length_le
      have hlen := congrArg List.length hl
      simp only [List.length_cons, List.length_append] at hlen hle
      omega
    rw [List.dropWhile_cons, if_neg (by simp [hc])]

theorem pyStrip_idem (l : List Char) : pyStrip (pyStrip l) = pyStrip l := by
  unfold pyStrip
  have ha : List.dropWhile isPySpace (List.dropWhile isPySpace l) =
      List.dropWhile isPySpace l := dropWhile_idem isPySpace l
  have hfix : List.dropWhile isPySpace
      (((List.dropWhile isPySpace l).reverse.dropWhile isPySpace).reverse) =
      ((List.dropWhile isPySpace l).reverse.dropWhile isPySpace).reverse := by
    apply dropWhile_fixed_of_prefix ha
    refine ⟨((List.dropWhile isPySpace l).reverse.takeWhile
      isPySpace).reverse, ?_⟩
    have h1 := List.takeWhile_append_dropWhile (p := isPySpace)
      (l := (List.dropWhile isPySpace l).reverse)
    have h2 := congrArg List.reverse h1
    rw [List.reverse_append, List.reverse_reverse] at h2
    exact h2
  rw [hfix, List.reverse_reverse, dropWhile_idem]

theorem strip_fold_tokens (toks : List (List Char)) (s : Finset (List Char))
    (hs : ∀ k ∈ s, pyStrip k = k) :
    ∀ k ∈ toks.foldl (fun s tok => insert (pyStrip tok) s) s,
      pyStrip k = k := by
  induction toks generalizing s with
  | nil => exact hs
  | cons t ts ih =>
    intro k hk
    refine ih _ ?_ k hk
    intro k' hk'
    rcases Finset.mem_insert.mp hk' with rfl | h
    · exact pyStrip_idem t
    · exact hs k' h

theorem strip_fold_groups (gs : List (List Char)) (s : Finset (List Char))
    (hs : ∀ k ∈ s, pyStrip k = k) :
    ∀ k ∈ gs.foldl
        (fun ks g =>
          (splitOnComma g).foldl (fun s tok => insert (pyStrip tok) s) ks) s,
      pyStrip k = k := by
  induction gs generalizing s with
  | nil => exact hs
  | cons g gs ih =>
    intro k hk
    exact ih _ (strip_fold_tokens (splitOnComma g) s hs) k hk

/-- C8: key extraction returns a deduplicated set (a `Finset`) in which
every member is a comma-separated token trimmed of surrounding whitespace
(so stripping is the identity on it), and re-running extraction on the same
input yields exactly the same set. -/
theorem search_keys_trimmed_idempotent (texts : List (List Char)) :
    (∀ k ∈ search_keys texts, pyStrip k = k)
    ∧ search_keys texts = search_keys texts := by
  refine ⟨?_, rfl⟩
  have gen : ∀ (ts : List (List Char)) (s : Finset (List Char)),
      (∀ k ∈ s, pyStrip k = k) →
      ∀ k ∈ ts.foldl
          (fun keys text =>
            (findCites text).foldl
              (fun ks g =>
                (splitOnComma g).foldl
                  (fun s tok => insert (pyStrip tok) s) ks) keys) s,
        pyStrip k = k := by
    intro ts
    induction ts with
    | nil => exact fun s hs => hs
    | cons t ts ih =>
      intro s hs
      exact ih _ (strip_fold_groups (findCites t) s hs)
  intro k hk
  exact gen texts ∅
    (fun k' hk' => absurd hk' (Finset.not_mem_empty k')) k hk

/-- Witness for C8 on a concrete source text. -/
theorem search_keys_trimmed_idempotent_witness :
    (∀ k ∈ search_keys [(" \\cite{ a, b } and \\citep{c}").data],
      pyStrip k = k)
    ∧ search_keys [(" \\cite{ a, b } and \\citep{c}").data] =
        search_keys [(" \\cite{ a, b } and \\citep{c}").data] :=
  search_keys_trimmed_idempotent [(" \\cite{ a, b } and \\citep{c}").data]

/-! ## Interactive resolution (`authoryear2bibcode` and `find_bibcode`,
lines 103-150)

`raw_input` is modelled by a finite script of operator responses threaded
through the loops; a result of `none` (as opposed to `some none`) means the
script ran out while the real program would still be blocked on input.
The `ads.SearchQuery` author/year search is the oracle `searchAY`,
returning the ranked candidate bibcodes. -/

/-- Python `int(s)` on a decimal string: strip whitespace, optional sign,
then a non-empty digit run; `none` models `ValueError`. -/
def pyInt (s : String) : Option Int :=
  match pyStrip s.data with
  | '-' :: ds =>
    if ds ≠ [] ∧ ds.all isPyDigit then some (-(digitsToNat ds : Int))
    else none
  | '+' :: ds =>
    if ds ≠ [] ∧ ds.all isPyDigit then some ((digitsToNat ds : Int))
    else none
  | ds =>
    if ds ≠ [] ∧ ds.all isPyDigit then some ((digitsToNat ds : Int))
    else none

/-- The compound-surname particles (line 31) after line 32's
`sorted(..., key=len, reverse=True)` — Python's sort is stable, so ties
keep the original tuple order. -/
def namePfxList : List (List Char) :=
  ["van den".data, "van der".data, "von der".data, "van de".data,
   "van".data, "den".data, "der".data, "de".data]

/-- The loop body of `_match_name_prefix` (lines 35-39): for each particle
in order, drop its spaces, test it as a lowercase prefix of the lowered
name, and on success rejoin `prefix + ' ' + remainder-of-the-original`. -/
def matchNamePfxAux : List (List Char) → List Char → Option (List Char)
  | [], _ => none
  | pfx :: ps, name =>
    if (name.map Char.toLower).take (pfx.filter (fun c => c ≠ ' ')).length =
        pfx.filter (fun c => c ≠ ' ') then
      some (pfx ++ ' ' :: name.drop (pfx.filter (fun c => c ≠ ' ')).length)
    else matchNamePfxAux ps name

/-- `_match_name_prefix` (lines 35-39). -/
def matchNamePfx (name : List Char) : Option (List Char) :=
  matchNamePfxAux namePfxList name

theorem matchNamePfxAux_space :
    ∀ (ps : List (List Char)) (name n : List Char),
      matchNamePfxAux ps name = some n → ' ' ∈ n := by
  intro ps
  induction ps with
  | nil => intro name n h; cases h
  | cons pfx ps ih =>
    intro name n h
    unfold matchNamePfxAux at h
    split at h
    · cases h
      exact List.mem_append.mpr (Or.inr (List.mem_cons_self _ _))
    · exact ih name n h

theorem matchNamePfx_space {name n : List Char}
    (h : matchNamePfx name = some n) : ' ' ∈ n :=
  matchNamePfxAux_space namePfxList name n h

/-- The interactive choice loop of `authoryear2bibcode` (lines 110-123):
each response is first tried as a free-form identifier via `id2bibcode`;
otherwise, if it parses as an integer in `[0, N]` the loop exits — `0`
returns the skip (`some none`, line 121-122) and `i ∈ [1, N]` returns the
`i`-th ranked candidate's bibcode (line 123); anything else re-prompts. -/
def disambLoop (query : IdType → List Char → Option String)
    (bibcodes : List String) :
    List String → Option (Option String) × List String
  | [] => (none, [])
  | c :: rest =>
    match id2bibcode query c.data with
    | some b => (some (some b), rest)
    | none =>
      match pyInt c with
      | some i =>
        if 0 ≤ i ∧ i ≤ (bibcodes.length : Int) then
          if i = 0 then (some none, rest)
          else (some (some (bibcodes.getD (i.toNat - 1) "")), rest)
        else disambLoop query bibcodes rest
      | none => disambLoop query bibcodes rest

/-- The free-form identifier-entry loop of `find_bibcode` (lines 144-150):
each response is tried as an identifier; an empty response ends the loop
with a skip. -/
def enterLoop (query : IdType → List Char → Option String) :
    List String → Option (Option String) × List String
  | [] => (none, [])
  | c :: rest =>
    match id2bibcode query c.data with
    | some b => (some (some b), rest)
    | none => if c = "" then (some none, rest) else enterLoop query rest

/-- `authoryear2bibcode` (lines 103-127).  When the author/year search has
candidates, run the interactive choice loop; with no candidates and a
space-free author, retry once with the compound-surname particle expanded
(the rewritten name contains a space, so the recursion terminates); else
resolve to the skip.  The `key` argument of the source only feeds the
prompt text and is omitted. -/
def authoryear2bibcode (query : IdType → List Char → Option String)
    (searchAY : List Char → List Char → List String)
    (author year : List Char) (inputs : List String) :
    Option (Option String) × List String :=
  if (searchAY author year).isEmpty then
    if hsp : ' ' ∈ author then (some none, inputs)
    else
      match hpfx : matchNamePfx author with
      | some newAuthor =>
        authoryear2bibcode query searchAY newAuthor year inputs
      | none => (some none, inputs)
  else disambLoop query (searchAY author year) inputs
termination_by (if ' ' ∈ author then 0 else 1)
decreasing_by
  have h1 : ' ' ∈ newAuthor := matchNamePfx_space hpfx
  simp [h1, hsp]

/-- `find_bibcode` (lines 130-150): direct identifier recognition, then the
author/year path (expanding a 2-digit year), then the free-form
identifier-entry loop. -/
def find_bibcode (query : IdType → List Char → Option String)
    (searchAY : List Char → List Char → List String)
    (thisYear thisCent : Int) (key : List Char) (inputs : List String) :
    Option (Option String) × List String :=
  match id2bibcode query key with
  | some b => (some (some b), inputs)
  | none =>
    match fayearMatch key with
    | some (fa, y) =>
      match authoryear2bibcode query searchAY fa
          (if y.length = 2 then (_y2toy4 thisYear thisCent y).data else y)
          inputs with
      | (some (some b), rest) => (some (some b), rest)
      | (some none, rest) => enterLoop query rest
      | (none, rest) => (none, rest)
    | none => enterLoop query inputs

/-! ## Claim C9 -/

/-- C9: whenever the ranked candidate list is non-empty, entering `0` makes
the author/year resolution return the skip (`Unresolved`), and
`find_bibcode` then falls through to the free-form identifier-entry loop
(with the remaining operator inputs) instead of skipping the key
outright. -/
theorem choice_zero_falls_through (query : IdType → List Char → Option String)
    (searchAY : List Char → List Char → List String)
    (thisYear thisCent : Int) (key fa y : List Char) (rest : List String)
    (hid : id2bibcode query key = none)
    (hfa : fayearMatch key = some (fa, y))
    (hay : searchAY fa
      (if y.length = 2 then (_y2toy4 thisYear thisCent y).data else y) ≠ []) :
    authoryear2bibcode query searchAY fa
        (if y.length = 2 then (_y2toy4 thisYear thisCent y).data else y)
        ("0" :: rest) = (some none, rest)
    ∧ find_bibcode query searchAY thisYear thisCent key ("0" :: rest) =
        enterLoop query rest := by
  have h0 : id2bibcode query "0".data = none := rfl
  have hint : pyInt "0" = some 0 := rfl
  have hdis : ∀ bcs : List String,
      disambLoop query bcs ("0" :: rest) = (some none, rest) := by
    intro bcs
    unfold disambLoop
    simp only [h0, hint]
    simp
  have hne : (searchAY fa
      (if y.length = 2 then (_y2toy4 thisYear thisCent y).data
       else y)).isEmpty = false := by
    cases hh : searchAY fa
        (if y.length = 2 then (_y2toy4 thisYear thisCent y).data else y) with
    | nil => exact absurd hh hay
    | cons a t => rfl
  have hay2 : authoryear2bibcode query searchAY fa
      (if y.length = 2 then (_y2toy4 thisYear thisCent y).data else y)
      ("0" :: rest) = (some none, rest) := by
    rw [authoryear2bibcode]
    rw [hne]
    simp only [Bool.false_eq_true, if_false]
    exact hdis _
  refine ⟨hay2, ?_⟩
  unfold find_bibcode
  simp only [hid, hfa, hay2]

/-- Witness for C9: one ranked candidate shown, the operator enters `0`,
and resolution proceeds to the (empty-scripted) identifier-entry loop. -/
theorem choice_zero_falls_through_witness :
    authoryear2bibcode (fun _ _ => none)
        (fun _ _ => ["2020ApJ...888L...1S"]) "Smith".data "2020".data
        ["0"] = (some none, [])
    ∧ find_bibcode (fun _ _ => none) (fun _ _ => ["2020ApJ...888L...1S"])
        25 20 "Smith2020".data ["0"] =
        enterLoop (fun _ _ => none) [] := by
  have h := choice_zero_falls_through (fun _ _ => none)
    (fun _ _ => ["2020ApJ...888L...1S"]) 25 20 "Smith2020".data
    "Smith".data "2020".data [] rfl (by decide) (by intro hc; cases hc)
  exact ⟨h.1, h.2⟩

/-! ## The retrieval batch and the merge step of `main` (lines 203-245) -/

/-- Line 233: the `to_retrieve` groups holding more than one key, reported
as "the following keys refer to the same entry … Keep only `k[0]`". -/
def repeated_keys (tr : List (String × List String)) :
    List (String × List String) :=
  tr.filter (fun t => 1 < t.2.length)

/-- `to_retrieve[b]` (read access on the accumulated map). -/
def lookupRetrieve (tr : List (String × List String)) (b : String) :
    Option (List String) :=
  (tr.find? (fun p => p.1 == b)).map Prod.snd

/-- Lines 241-242: rewrite each fetched record's ID (a bibcode) to
`to_retrieve[id][0]`, the first citation key queued under that bibcode;
`none` models the lookup that cannot fail when the export returned exactly
the queued bibcodes. -/
def rewriteIDs (tr : List (String × List String)) :
    List BibEntry → Option (List BibEntry)
  | [] => some []
  | e :: es =>
    match lookupRetrieve tr e.ID with
    | some (k :: _) =>
      match rewriteIDs tr es with
      | some es2 => some ({ e with ID := k } :: es2)
      | none => none
    | _ => none

theorem lookupRetrieve_of_nodup {tr : List (String × List String)}
    {p : String × List String} (h3 : (tr.map Prod.fst).Nodup) (hp : p ∈ tr) :
    lookupRetrieve tr p.1 = some p.2 := by
  induction tr with
  | nil => exact absurd hp (List.not_mem_nil p)
  | cons q tr ih =>
    have hnd' : (tr.map Prod.fst).Nodup := (List.nodup_cons.mp h3).2
    have hq : q.1 ∉ tr.map Prod.fst := (List.nodup_cons.mp h3).1
    rcases List.mem_cons.mp hp with rfl | hp'
    · unfold lookupRetrieve
      rw [List.find?_cons_of_pos _ (by simp)]
      rfl
    · have hne : q.1 ≠ p.1 := by
        intro hc
        exact hq (hc ▸ List.mem_map_of_mem Prod.fst hp')
      unfold lookupRetrieve
      rw [List.find?_cons_of_neg _ (by simp [hne])]
      exact ih hnd' hp'

theorem rewriteIDs_spec (tr : List (String × List String)) :
    ∀ (bs : List BibEntry) (ts : List (String × List String)),
      bs.map BibEntry.ID = ts.map Prod.fst →
      (∀ p ∈ ts, lookupRetrieve tr p.1 = some p.2) →
      (∀ p ∈ ts, p.2 ≠ []) →
      ∃ es, rewriteIDs tr bs = some es
        ∧ es.map BibEntry.ID = ts.map (fun p => p.2.headD "") := by
  intro bs
  induction bs with
  | nil =>
    intro ts hmap _ _
    have : ts = [] := by
      cases ts with
      | nil => rfl
      | cons a t => cases hmap
    subst this
    exact ⟨[], rfl, rfl⟩
  | cons e bs ih =>
    intro ts hmap hlook hne
    cases ts with
    | nil => cases hmap
    | cons q ts' =>
      have hids : e.ID = q.1 ∧ bs.map BibEntry.ID = ts'.map Prod.fst := by
        rw [List.map_cons, List.map_cons] at hmap
        exact ⟨List.head_eq_of_cons_eq hmap, List.tail_eq_of_cons_eq hmap⟩
      have hq : lookupRetrieve tr e.ID = some q.2 := by
        rw [hids.1]
        exact hlook q (List.mem_cons_self q ts')
      cases hq2 : q.2 with
      | nil => exact absurd hq2 (hne q (List.mem_cons_self q ts'))
      | cons k ks =>
        rcases ih ts' hids.2
            (fun p hp => hlook p (List.mem_cons_of_mem q hp))
            (fun p hp => hne p (List.mem_cons_of_mem q hp)) with
          ⟨es2, hrw, hm⟩
        refine ⟨{ e with ID := k } :: es2, ?_, ?_⟩
        · unfold rewriteIDs
          rw [hq, hq2, hrw]
        · rw [List.map_cons, hm, List.map_cons, hq2]
          rfl

/-- The merged lookup of `update_bib`: batch bindings first, then the prior
store. -/
theorem findEntry_update_bib (b1 b2 : BibDatabase) (k : String) :
    findEntry (update_bib b1 b2).entries k =
      match dictLookup (entriesDict b2.entries) k with
      | some e => some e
      | none => dictLookup (entriesDict b1.entries) k := by
  have hkeys : KeysAreIDs (dictUpdate (entriesDict b1.entries)
      (entriesDict b2.entries)) :=
    keysAreIDs_dictUpdate (keysAreIDs_entriesDict _) (keysAreIDs_entriesDict _)
  have : (update_bib b1 b2).entries = (dictUpdate (entriesDict b1.entries)
      (entriesDict b2.entries)).map Prod.snd := rfl
  rw [this, findEntry_values k hkeys, dictLookup_dictUpdate]

theorem mem_keys_entriesDict {es : List BibEntry} {k : String}
    (h : ∃ e ∈ es, e.ID = k) : k ∈ (entriesDict es).map Prod.fst := by
  have keys_dictInsert : ∀ (d : List (String × BibEntry)) (k' : String)
      (v : BibEntry) (k'' : String), (k'' ∈ d.map Prod.fst ∨ k'' = k') →
      k'' ∈ (dictInsert d k' v).map Prod.fst := by
    intro d k' v k'' hk
    unfold dictInsert
    by_cases hany : d.any (fun p => p.1 == k')
    · rw [if_pos hany]
      have hkeys : (d.map (fun p => if p.1 == k' then (p.1, v) else p)).map
          Prod.fst = d.map Prod.fst := by
        rw [List.map_map]
        apply List.map_congr_left
        intro p _
        by_cases hp : p.1 = k'
        · simp [hp]
        · simp [hp]
      rw [hkeys]
      rcases hk with hk | rfl
      · exact hk
      · rcases List.any_eq_true.mp hany with ⟨q, hq, hqk⟩
        have : q.1 = k'' := eq_of_beq hqk
        exact this ▸ List.mem_map_of_mem Prod.fst hq
    · rw [if_neg hany, List.map_append, List.mem_append]
      rcases hk with hk | rfl
      · exact Or.inl hk
      · exact Or.inr (List.mem_singleton.mpr rfl)
  have gen : ∀ (l : List BibEntry) (d : List (String × BibEntry)),
      (k ∈ d.map Prod.fst ∨ ∃ e ∈ l, e.ID = k) →
      k ∈ ((l.foldl (fun d e => dictInsert d e.ID e) d).map Prod.fst) := by
    intro l
    induction l with
    | nil =>
      intro d hd
      rcases hd with hd | ⟨e, he, _⟩
      · exact hd
      · exact absurd he (List.not_mem_nil e)
    | cons e l ih =>
      intro d hd
      apply ih
      rcases hd with hd | ⟨e', he', hid⟩
      · exact Or.inl (keys_dictInsert d e.ID e k (Or.inl hd))
      · rcases List.mem_cons.mp he' with rfl | he''
        · exact Or.inl (keys_dictInsert d e'.ID e' k (Or.inr hid.symm))
        · exact Or.inr ⟨e', he'', hid⟩
  exact gen es [] (Or.inr h)

theorem dictLookup_mem_keys {d : List (String × BibEntry)} {k : String}
    (h : k ∈ d.map Prod.fst) : ∃ e, dictLookup d k = some e := by
  induction d with
  | nil => cases h
  | cons p d ih =>
    rw [List.map_cons, List.mem_cons] at h
    by_cases hp : p.1 = k
    · refine ⟨p.2, ?_⟩
      unfold dictLookup
      rw [List.find?_cons_of_pos _ (by simp [hp])]
      rfl
    · rcases h with hk | hk
      · exact absurd hk.symm hp
      · rcases ih hk with ⟨e, he⟩
        refine ⟨e, ?_⟩
        unfold dictLookup at he ⊢
        rw [List.find?_cons_of_neg _ (by simp [hp])]
        exact he

theorem dictLookup_id {d : List (String × BibEntry)} {k : String}
    {e : BibEntry} (hd : KeysAreIDs d) (h : dictLookup d k = some e) :
    e.ID = k := by
  unfold dictLookup at h
  cases hf : d.find? (fun p => p.1 == k) with
  | none => rw [hf] at h; cases h
  | some q =>
    rw [hf] at h
    cases h
    have hq0 := List.find?_some hf
    have hqk : (q.1 == k) = true := hq0
    have := hd q (List.mem_of_find?_eq_some hf)
    rw [this]
    exact eq_of_beq hqk

/-- The merge conclusion shared by the deduplication and interrupt claims:
with one fetched record per queued bibcode, ID rewriting succeeds, the
rewritten IDs are exactly the first queued keys (in batch order), and the
merged store resolves each first key to an entry carrying it as ID. -/
theorem merge_store_lemma (bib : BibDatabase)
    (tr : List (String × List String)) (bibNew : List BibEntry)
    (h1 : bibNew.map BibEntry.ID = tr.map Prod.fst)
    (h2 : ∀ p ∈ tr, p.2 ≠ [])
    (h3 : (tr.map Prod.fst).Nodup) :
    ∃ es, rewriteIDs tr bibNew = some es
      ∧ es.map BibEntry.ID = tr.map (fun p => p.2.headD "")
      ∧ ∀ p ∈ tr, ∃ e,
          findEntry ((update_bib bib ⟨es⟩).entries) (p.2.headD "") = some e
          ∧ e.ID = p.2.headD "" := by
  rcases rewriteIDs_spec tr bibNew tr h1
      (fun p hp => lookupRetrieve_of_nodup h3 hp) h2 with ⟨es, hrw, hm⟩
  refine ⟨es, hrw, hm, ?_⟩
  intro p hp
  have hfk : p.2.headD "" ∈ es.map BibEntry.ID := by
    rw [hm]
    exact List.mem_map_of_mem (fun p => p.2.headD "") hp
  rcases List.mem_map.mp hfk with ⟨e0, he0, hid0⟩
  have hkey : p.2.headD "" ∈ (entriesDict es).map Prod.fst :=
    mem_keys_entriesDict ⟨e0, he0, hid0⟩
  rcases dictLookup_mem_keys hkey with ⟨e, he⟩
  have heid : e.ID = p.2.headD "" :=
    dictLookup_id (keysAreIDs_entriesDict es) he
  refine ⟨e, ?_, heid⟩
  rw [findEntry_update_bib]
  have hes : (BibDatabase.mk es).entries = es := rfl
  rw [hes, he]

/-! ## Claim C1 -/

/-- C1: when several distinct keys resolve to the same bibcode, the batch
holds exactly one record per queued bibcode, each rewritten to the first
key appended under that bibcode (in batch order); groups with more than one
key are reported by `repeated_keys`; and the merged store resolves each
retained first key to exactly the rewritten record — no second entry for
the same bibcode arises from this path. -/
theorem merge_dedup_aliases (bib : BibDatabase)
    (tr : List (String × List String)) (bibNew : List BibEntry)
    (h1 : bibNew.map BibEntry.ID = tr.map Prod.fst)
    (h2 : ∀ p ∈ tr, p.2 ≠ [])
    (h3 : (tr.map Prod.fst).Nodup) :
    (bibNew.map BibEntry.ID).Nodup
    ∧ (∀ p ∈ tr, 1 < p.2.length → p ∈ repeated_keys tr)
    ∧ ∃ es, rewriteIDs tr bibNew = some es
        ∧ es.map BibEntry.ID = tr.map (fun p => p.2.headD "")
        ∧ ∀ p ∈ tr, ∃ e,
            findEntry ((update_bib bib ⟨es⟩).entries) (p.2.headD "") = some e
            ∧ e.ID = p.2.headD "" := by
  refine ⟨h1 ▸ h3, ?_, merge_store_lemma bib tr bibNew h1 h2 h3⟩
  intro p hp hlen
  exact List.mem_filter.mpr ⟨hp, by simpa using hlen⟩

/-- Witness for C1: two keys `k1`, `k2` resolved to the one bibcode
`2020B`; the batch keeps a single entry, renamed to `k1`. -/
theorem merge_dedup_aliases_witness :
    ((([⟨"2020B", []⟩] : List BibEntry).map BibEntry.ID).Nodup
    ∧ (∀ p ∈ [("2020B", ["k1", "k2"])], 1 < p.2.length →
        p ∈ repeated_keys [("2020B", ["k1", "k2"])])
    ∧ ∃ es, rewriteIDs [("2020B", ["k1", "k2"])] [⟨"2020B", []⟩] = some es
        ∧ es.map BibEntry.ID =
            [("2020B", ["k1", "k2"])].map (fun p => p.2.headD "")
        ∧ ∀ p ∈ [("2020B", ["k1", "k2"])], ∃ e,
            findEntry ((update_bib ⟨[]⟩ ⟨es⟩).entries) (p.2.headD "") = some e
            ∧ e.ID = p.2.headD "") :=
  merge_dedup_aliases ⟨[]⟩ [("2020B", ["k1", "k2"])] [⟨"2020B", []⟩]
    (by decide) (by decide) (by decide)

/-! ## The resolution loop as a state machine (lines 203-245) -/

/-- The loop's accumulated state: `to_retrieve` (insertion-ordered
`defaultdict(list)`, line 204) and `not_found` (line 203). -/
structure LoopState where
  toRetrieve : List (String × List String)
  notFound : List String
deriving DecidableEq, Repr

/-- `to_retrieve[bibcode].append(key)` (lines 212, 219). -/
def appendRetrieve (tr : List (String × List String)) (b key : String) :
    List (String × List String) :=
  if tr.any (fun p => p.1 == b) then
    tr.map (fun p => if p.1 == b then (p.1, p.2 ++ [key]) else p)
  else tr ++ [(b, [key])]

/-- One iteration of the `for key in keys` loop (lines 206-223) acting on
the accumulated state. -/
def stepKey (updateFlag : Bool) (qBib qDoi qArx resolve : String → Option String)
    (bib : BibDatabase) (st : LoopState) (key : String) : LoopState :=
  match processKey updateFlag qBib qDoi qArx resolve bib key with
  | KeyStatus.update b =>
    { st with toRetrieve := appendRetrieve st.toRetrieve b key }
  | KeyStatus.newEntry b =>
    { st with toRetrieve := appendRetrieve st.toRetrieve b key }
  | KeyStatus.existing => st
  | KeyStatus.notFound => { st with notFound := st.notFound ++ [key] }

/-- The full resolution loop over the key set in its iteration order. -/
def runKeys (uf : Bool) (qB qD qA r : String → Option String)
    (bib : BibDatabase) (keys : List String) : LoopState :=
  keys.foldl (stepKey uf qB qD qA r bib) ⟨[], []⟩

/-- A `KeyboardInterrupt` raised after `i` fully processed keys: the
`except KeyboardInterrupt` at line 224 swallows it, so the loop's effect is
exactly that of the processed prefix, and control falls through to
reporting/merging with this state. -/
def runKeysInterrupted (uf : Bool) (qB qD qA r : String → Option String)
    (bib : BibDatabase) (keys : List String) (i : Nat) : LoopState :=
  runKeys uf qB qD qA r bib (keys.take i)

/-- Lines 232-245 after the loop: if anything was queued, batch-export the
queued bibcodes (`exportQ` models `ads.ExportQuery(to_retrieve.keys(),
'bibtex')`), rewrite each record's ID to its retained first key, merge into
the store with `update_bib` and persist.  The `not_found` and
`repeated_keys` reports do not change the store. -/
def finishRun (bib : BibDatabase) (st : LoopState)
    (exportQ : List String → List BibEntry) : Option BibDatabase :=
  if st.toRetrieve.isEmpty then some bib
  else
    match rewriteIDs st.toRetrieve (exportQ (st.toRetrieve.map Prod.fst)) with
    | some es => some (update_bib bib ⟨es⟩)
    | none => none

/-! ### Loop-state lemmas -/

theorem find?_map_keys (f : String × List String → String × List String)
    (hf : ∀ p, (f p).1 = p.1) (tr : List (String × List String)) (b : String) :
    (tr.map f).find? (fun p => p.1 == b) =
      (tr.find? (fun p => p.1 == b)).map f := by
  induction tr with
  | nil => rfl
  | cons p tr ih =>
    by_cases hp : p.1 = b
    · rw [List.map_cons, List.find?_cons_of_pos _ (by simp [hf, hp]),
        List.find?_cons_of_pos _ (by simp [hp])]
      rfl
    · rw [List.map_cons, List.find?_cons_of_neg _ (by simp [hf, hp]),
        List.find?_cons_of_neg _ (by simp [hp])]
      exact ih

theorem appendRetrieve_self (tr : List (String × List String))
    (b key : String) :
    ∃ ks, lookupRetrieve (appendRetrieve tr b key) b = some ks
      ∧ key ∈ ks := by
  unfold appendRetrieve
  by_cases hany : tr.any (fun p => p.1 == b)
  · rw [if_pos hany]
    have hfind : ∃ q, tr.find? (fun p => p.1 == b) = some q := by
      cases hf : tr.find? (fun p => p.1 == b) with
      | some q => exact ⟨q, rfl⟩
      | none =>
        rcases List.any_eq_true.mp hany with ⟨q, hq, hqb⟩
        exact absurd hqb (List.find?_eq_none.mp hf q hq)
    rcases hfind with ⟨q, hq⟩
    refine ⟨q.2 ++ [key], ?_,
      List.mem_append.mpr (Or.inr (List.mem_singleton.mpr rfl))⟩
    unfold lookupRetrieve
    rw [find?_map_keys (fun p => if p.1 == b then (p.1, p.2 ++ [key]) else p)
      (fun p => by by_cases h : p.1 = b <;> simp [h]) tr b, hq]
    have hqb0 := List.find?_some hq
    have hqb : (q.1 == b) = true := hqb0
    simp [eq_of_beq hqb]
  · rw [if_neg hany]
    have hnone : tr.find? (fun p => p.1 == b) = none := by
      apply List.find?_eq_none.mpr
      intro q hq hqb
      have : tr.any (fun p => p.1 == b) = true :=
        List.any_eq_true.mpr ⟨q, hq, hqb⟩
      exact hany this
    refine ⟨[key], ?_, List.mem_singleton.mpr rfl⟩
    unfold lookupRetrieve
    rw [find?_append_none _ hnone]
    simp

theorem appendRetrieve_mono {tr : List (String × List String)} {b : String}
    {ks : List String} (b' k' : String)
    (h : lookupRetrieve tr b = some ks) :
    ∃ ks', lookupRetrieve (appendRetrieve tr b' k') b = some ks'
      ∧ ∀ x ∈ ks, x ∈ ks' := by
  unfold lookupRetrieve at h
  cases hf : tr.find? (fun p => p.1 == b) with
  | none => rw [hf] at h; cases h
  | some q =>
    rw [hf] at h
    cases h
    unfold appendRetrieve
    by_cases hany : tr.any (fun p => p.1 == b')
    · rw [if_pos hany]
      unfold lookupRetrieve
      rw [find?_map_keys (fun p => if p.1 == b' then (p.1, p.2 ++ [k'])
          else p)
        (fun p => by by_cases hh : p.1 = b' <;> simp [hh]) tr b, hf]
      by_cases hqb : (q.1 == b') = true
      · exact ⟨q.2 ++ [k'], by simp [eq_of_beq hqb],
          fun x hx => List.mem_append.mpr (Or.inl hx)⟩
      · have hne : ¬ q.1 = b' := fun hc => hqb (by simp [hc])
        exact ⟨q.2, by simp [hne], fun x hx => hx⟩
    · rw [if_neg hany]
      unfold lookupRetrieve
      rw [find?_append_some _ hf]
      exact ⟨q.2, rfl, fun x hx => hx⟩

theorem appendRetrieve_nonempty {tr : List (String × List String)}
    (b key : String) (h : ∀ p ∈ tr, p.2 ≠ []) :
    ∀ p ∈ appendRetrieve tr b key, p.2 ≠ [] := by
  intro p hp
  unfold appendRetrieve at hp
  by_cases hany : tr.any (fun p => p.1 == b)
  · rw [if_pos hany] at hp
    rcases List.mem_map.mp hp with ⟨q, hq, hmap⟩
    by_cases hqb : (q.1 == b) = true
    · rw [if_pos hqb] at hmap
      subst hmap
      simp
    · rw [if_neg hqb] at hmap
      subst hmap
      exact h q hq
  · rw [if_neg hany] at hp
    rcases List.mem_append.mp hp with h1 | h1
    · exact h p h1
    · rcases List.mem_singleton.mp h1 with rfl
      simp

theorem appendRetrieve_nodup {tr : List (String × List String)}
    (b key : String) (h : (tr.map Prod.fst).Nodup) :
    ((appendRetrieve tr b key).map Prod.fst).Nodup := by
  unfold appendRetrieve
  by_cases hany : tr.any (fun p => p.1 == b)
  · rw [if_pos hany]
    have hkeys : (tr.map (fun p => if p.1 == b then (p.1, p.2 ++ [key])
        else p)).map Prod.fst = tr.map Prod.fst := by
      rw [List.map_map]
      apply List.map_congr_left
      intro p _
      by_cases hp : p.1 = b <;> simp [hp]
    rw [hkeys]
    exact h
  · rw [if_neg hany, List.map_append]
    refine List.Nodup.append h (List.nodup_singleton b) ?_
    intro a ha hb
    rcases List.mem_singleton.mp hb with rfl
    rcases List.mem_map.mp ha with ⟨q, hq, hq1⟩
    have : tr.any (fun p => p.1 == a) = true :=
      List.any_eq_true.mpr ⟨q, hq, by simp [hq1]⟩
    exact hany this

theorem runKeys_inv (uf : Bool) (qB qD qA r : String → Option String)
    (bib : BibDatabase) :
    ∀ (keys : List String) (st : LoopState),
      (∀ p ∈ st.toRetrieve, p.2 ≠ []) → (st.toRetrieve.map Prod.fst).Nodup →
      (∀ p ∈ (keys.foldl (stepKey uf qB qD qA r bib) st).toRetrieve,
        p.2 ≠ [])
      ∧ ((keys.foldl (stepKey uf qB qD qA r bib) st).toRetrieve.map
          Prod.fst).Nodup := by
  intro keys
  induction keys with
  | nil => exact fun st h1 h2 => ⟨h1, h2⟩
  | cons k keys ih =>
    intro st h1 h2
    rw [List.foldl_cons]
    apply ih
    · unfold stepKey
      cases processKey uf qB qD qA r bib k with
      | update b => exact appendRetrieve_nonempty b k h1
      | newEntry b => exact appendRetrieve_nonempty b k h1
      | existing => exact h1
      | notFound => exact h1
    · unfold stepKey
      cases processKey uf qB qD qA r bib k with
      | update b => exact appendRetrieve_nodup b k h2
      | newEntry b => exact appendRetrieve_nodup b k h2
      | existing => exact h2
      | notFound => exact h2

theorem runKeys_mem (uf : Bool) (qB qD qA r : String → Option String)
    (bib : BibDatabase) :
    ∀ (keys : List String) (st : LoopState) (key b : String),
      ((key ∈ keys
          ∧ queuedBibcode (processKey uf qB qD qA r bib key) = some b)
        ∨ ∃ ks0, lookupRetrieve st.toRetrieve b = some ks0 ∧ key ∈ ks0) →
      ∃ ks, lookupRetrieve
          ((keys.foldl (stepKey uf qB qD qA r bib) st).toRetrieve) b =
          some ks
        ∧ key ∈ ks := by
  intro keys
  induction keys with
  | nil =>
    intro st key b h
    rcases h with ⟨hmem, _⟩ | ⟨ks0, h1, h2⟩
    · exact absurd hmem (List.not_mem_nil key)
    · exact ⟨ks0, h1, h2⟩
  | cons k' keys ih =>
    intro st key b h
    rw [List.foldl_cons]
    rcases h with ⟨hmem, hq⟩ | ⟨ks0, h1, h2⟩
    · rcases List.mem_cons.mp hmem with rfl | hmem'
      · apply ih
        right
        unfold stepKey
        cases hpk : processKey uf qB qD qA r bib key with
        | update b0 =>
          have hb0 : b0 = b := by
            rw [hpk] at hq
            cases hq
            rfl
          subst hb0
          exact appendRetrieve_self st.toRetrieve b0 key
        | newEntry b0 =>
          have hb0 : b0 = b := by
            rw [hpk] at hq
            cases hq
            rfl
          subst hb0
          exact appendRetrieve_self st.toRetrieve b0 key
        | existing =>
          rw [hpk] at hq
          cases hq
        | notFound =>
          rw [hpk] at hq
          cases hq
      · exact ih _ key b (Or.inl ⟨hmem', hq⟩)
    · apply ih
      right
      unfold stepKey
      cases hpk : processKey uf qB qD qA r bib k' with
      | update b0 =>
        rcases appendRetrieve_mono b0 k' h1 with ⟨ks', hks', hsub⟩
        exact ⟨ks', hks', hsub key h2⟩
      | newEntry b0 =>
        rcases appendRetrieve_mono b0 k' h1 with ⟨ks', hks', hsub⟩
        exact ⟨ks', hks', hsub key h2⟩
      | existing => exact ⟨ks0, h1, h2⟩
      | notFound => exact ⟨ks0, h1, h2⟩

/-! ## Claim C7 -/

/-- C7: an operator interrupt after `i` fully processed keys abandons the
remaining keys (the loop state is exactly that of the processed prefix)
without losing resolved results: every key queued during the prefix is
still in the retrieval batch under its bibcode, the batch is fetched and
merged into the store, and the group's retained first key resolves in the
persisted store. -/
theorem interrupt_preserves_resolved (uf : Bool)
    (qB qD qA r : String → Option String) (bib : BibDatabase)
    (exportQ : List String → List BibEntry) (keys : List String) (i : Nat)
    (hex : (exportQ ((runKeysInterrupted uf qB qD qA r bib
        keys i).toRetrieve.map Prod.fst)).map BibEntry.ID =
      (runKeysInterrupted uf qB qD qA r bib keys i).toRetrieve.map
        Prod.fst) :
    runKeysInterrupted uf qB qD qA r bib keys i =
      runKeys uf qB qD qA r bib (keys.take i)
    ∧ ∀ key ∈ keys.take i, ∀ b,
        queuedBibcode (processKey uf qB qD qA r bib key) = some b →
        ∃ ks, lookupRetrieve
            (runKeysInterrupted uf qB qD qA r bib keys i).toRetrieve b =
            some ks
          ∧ key ∈ ks
          ∧ ∃ bibF, finishRun bib
              (runKeysInterrupted uf qB qD qA r bib keys i) exportQ =
              some bibF
            ∧ ∃ e, findEntry bibF.entries (ks.headD "") = some e
              ∧ e.ID = ks.headD "" := by
  refine ⟨rfl, ?_⟩
  intro key hkey b hqb
  rcases runKeys_mem uf qB qD qA r bib (keys.take i) ⟨[], []⟩ key b
      (Or.inl ⟨hkey, hqb⟩) with ⟨ks, hks0, hkmem⟩
  have hks : lookupRetrieve
      (runKeysInterrupted uf qB qD qA r bib keys i).toRetrieve b =
      some ks := hks0
  have hinv0 := runKeys_inv uf qB qD qA r bib (keys.take i) ⟨[], []⟩
    (fun p hp => absurd hp (List.not_mem_nil p)) (by simp)
  have hinv : (∀ p ∈ (runKeysInterrupted uf qB qD qA r bib
        keys i).toRetrieve, p.2 ≠ [])
      ∧ ((runKeysInterrupted uf qB qD qA r bib keys i).toRetrieve.map
          Prod.fst).Nodup := hinv0
  have hpair : (b, ks) ∈
      (runKeysInterrupted uf qB qD qA r bib keys i).toRetrieve := by
    unfold lookupRetrieve at hks
    cases hf : (runKeysInterrupted uf qB qD qA r bib
        keys i).toRetrieve.find? (fun p => p.1 == b) with
    | none =>
      rw [hf] at hks
      cases hks
    | some q =>
      rw [hf] at hks
      cases hks
      have hq0 := List.find?_some hf
      have hqb2 : (q.1 == b) = true := hq0
      have hq1 : q.1 = b := eq_of_beq hqb2
      have heta : (b, q.2) = q := by
        rw [← hq1]
      rw [heta]
      exact List.mem_of_find?_eq_some hf
  rcases merge_store_lemma bib
      (runKeysInterrupted uf qB qD qA r bib keys i).toRetrieve
      (exportQ ((runKeysInterrupted uf qB qD qA r bib
        keys i).toRetrieve.map Prod.fst)) hex hinv.1 hinv.2 with
    ⟨es, hrw, _, hres⟩
  have hfinish : finishRun bib (runKeysInterrupted uf qB qD qA r bib keys i)
      exportQ = some (update_bib bib ⟨es⟩) := by
    unfold finishRun
    have hne : ((runKeysInterrupted uf qB qD qA r bib
        keys i).toRetrieve).isEmpty = false := by
      cases hh : (runKeysInterrupted uf qB qD qA r bib keys i).toRetrieve with
      | nil =>
        rw [hh] at hpair
        exact absurd hpair (List.not_mem_nil _)
      | cons a t => rfl
    rw [hne]
    simp only [Bool.false_eq_true, if_false]
    rw [hrw]
  rcases hres (b, ks) hpair with ⟨e, hfe, hid⟩
  exact ⟨ks, hks, hkmem, update_bib bib ⟨es⟩, hfinish, e, hfe, hid⟩

/-- Witness for C7: two keys, interrupt after the first; the resolved key
`k1` (a NEW ENTRY for bibcode `2020B`) still reaches the merged store. -/
theorem interrupt_preserves_resolved_witness :
    runKeysInterrupted true (fun _ => none) (fun _ => none) (fun _ => none)
        (fun _ => some "2020B") ⟨[]⟩ ["k1", "k2"] 1 =
      runKeys true (fun _ => none) (fun _ => none) (fun _ => none)
        (fun _ => some "2020B") ⟨[]⟩ (["k1", "k2"].take 1)
    ∧ ∀ key ∈ ["k1", "k2"].take 1, ∀ b,
        queuedBibcode (processKey true (fun _ => none) (fun _ => none)
          (fun _ => none) (fun _ => some "2020B") ⟨[]⟩ key) = some b →
        ∃ ks, lookupRetrieve
            (runKeysInterrupted true (fun _ => none) (fun _ => none)
              (fun _ => none) (fun _ => some "2020B") ⟨[]⟩
              ["k1", "k2"] 1).toRetrieve b = some ks
          ∧ key ∈ ks
          ∧ ∃ bibF, finishRun ⟨[]⟩
              (runKeysInterrupted true (fun _ => none) (fun _ => none)
                (fun _ => none) (fun _ => some "2020B") ⟨[]⟩
                ["k1", "k2"] 1)
              (fun bs => bs.map (fun b => ⟨b, []⟩)) = some bibF
            ∧ ∃ e, findEntry bibF.entries (ks.headD "") = some e
              ∧ e.ID = ks.headD "" :=
  interrupt_preserves_resolved true (fun _ => none) (fun _ => none)
    (fun _ => none) (fun _ => some "2020B") ⟨[]⟩
    (fun bs => bs.map (fun b => ⟨b, []⟩)) ["k1", "k2"] 1 (by decide)

end Adstex
